import Mathlib

/-!
Verification development for the Perplexity IDE repository.

The stream parser (`PerplexityClient.processStreamingResponse`) and the
conversation service (`PerplexityService`) are shallowly embedded below.
Strings are modelled as `List Char` (text after the transport's byte
decoding); JSON parsing of a `data:` payload is an external library call
(`JSON.parse`), so it is a parameter `parse : List Char → Option DataDoc`
projecting the parsed document onto exactly the fields the code reads,
with `Option` encoding JavaScript truthiness of each field access.
-/

namespace Perplexity

/-- `PerplexityResponse` from the client: the terminal value resolved on
stream end (`fullResponse` holds `currentAnswer.length`). -/
structure PerplexityResponse where
  success : Bool
  answer : List Char
  threadUrlSlug : List Char
  readWriteToken : List Char
  fullResponse : Nat
deriving DecidableEq, Repr

/-- Projection of `block.markdown_block`: `chunks` is `some l` when the
field is an array (inner `some s` when the element is a string), `answer`
is `some a` when the field is a truthy string. -/
structure MarkdownBlock where
  chunks : Option (List (Option (List Char)))
  answer : Option (List Char)
deriving DecidableEq, Repr

/-- Projection of one element of `data.blocks`: `intended_usage` and a
truthy `markdown_block`. -/
structure Block where
  intended_usage : List Char
  markdown_block : Option MarkdownBlock
deriving DecidableEq, Repr

/-- Projection of a parsed `data:` JSON document onto the fields the
parser reads: truthy `thread_url_slug` / `read_write_token`, and
`blocks` when it is an array (inner `some b` when the element is a
truthy object). -/
structure DataDoc where
  thread_url_slug : Option (List Char)
  read_write_token : Option (List Char)
  blocks : Option (List (Option Block))
deriving DecidableEq, Repr

/-- The parser's accumulator variables (`currentAnswer`, `threadUrlSlug`,
`readWriteToken`, `lastEvent`) plus the ordered list of tokens passed to
`onToken` so far. -/
structure Core where
  currentAnswer : List Char
  threadUrlSlug : List Char
  readWriteToken : List Char
  lastEvent : List Char
  tokens : List (List Char)
deriving DecidableEq, Repr

/-- Full parser state: `buffer` (the incomplete trailing line) plus the
accumulators. -/
structure PState where
  buffer : List Char
  core : Core
deriving DecidableEq, Repr

/-- JavaScript `String.prototype.trim` whitespace (ASCII part). -/
def isWs (c : Char) : Bool :=
  c = ' ' || c = '\t' || c = '\n' || c = '\r' || c = '\x0b' || c = '\x0c'

/-- `s.trim()`: drop whitespace from both ends. -/
def trim (l : List Char) : List Char :=
  ((l.dropWhile isWs).reverse.dropWhile isWs).reverse

/-- `raw.replace(/\r$/, '')`: drop a single trailing carriage return. -/
def stripCr (l : List Char) : List Char :=
  if l.getLast? = some '\r' then l.dropLast else l

/-- `pre` is a literal starting segment of `l` (JavaScript `startsWith`). -/
def strStarts : List Char → List Char → Bool
  | [], _ => true
  | _ :: _, [] => false
  | p :: ps, c :: cs => p == c && strStarts ps cs

/-- The inner loop over `mb.chunks`: each string element is emitted as a
token and appended to `currentAnswer`; non-strings are skipped. -/
def emitChunks (c : Core) (chs : List (Option (List Char))) : Core :=
  chs.foldl
    (fun c ch =>
      match ch with
      | some s => { c with tokens := c.tokens ++ [s], currentAnswer := c.currentAnswer ++ s }
      | none => c)
    c

/-- Processing of one element of `data.blocks`: an `ask_text` block with
a `markdown_block` either emits its chunk list, or (with no non-empty
chunk list) emits the suffix of the cumulative `answer` beyond the
accumulated length. -/
def applyBlock (c : Core) (b : Option Block) : Core :=
  match b with
  | none => c
  | some bb =>
    if bb.intended_usage = ("ask_text").toList then
      match bb.markdown_block with
      | none => c
      | some mb =>
        match mb.chunks with
        | some (ch :: chs) => emitChunks c (ch :: chs)
        | _ =>
          match mb.answer with
          | some a =>
            if c.currentAnswer.length < a.length then
              { c with tokens := c.tokens ++ [a.drop c.currentAnswer.length],
                       currentAnswer := a }
            else c
          | none => c
    else c

/-- Processing of one parsed `data:` document: side fields
`threadUrlSlug` / `readWriteToken` are updated unconditionally; the
block loop runs only when `lastEvent` is empty or `"message"`. -/
def applyDoc (c : Core) (d : DataDoc) : Core :=
  let c1 := match d.thread_url_slug with
    | some s => { c with threadUrlSlug := s }
    | none => c
  let c2 := match d.read_write_token with
    | some s => { c1 with readWriteToken := s }
    | none => c1
  if c2.lastEvent ≠ [] ∧ c2.lastEvent ≠ ("message").toList then c2
  else
    match d.blocks with
    | some bs => bs.foldl applyBlock c2
    | none => c2

/-- Processing of one complete line of the event stream, mirroring the
body of the `for (const raw of lines)` loop: strip `\r`, trim, skip
blanks, record `event:` names, and for a `data:` line take
`line.substring(6).trim()`, skip a literal empty-object payload, and
apply the parsed document (a parse failure is silently swallowed). -/
def processLine (parse : List Char → Option DataDoc) (c : Core) (raw : List Char) : Core :=
  if trim (stripCr raw) = [] then c
  else if strStarts (("event:").toList) (trim (stripCr raw)) then
    { c with lastEvent := trim ((trim (stripCr raw)).drop 6) }
  else if ¬ strStarts (("data:").toList) (trim (stripCr raw)) then c
  else if trim ((trim (stripCr raw)).drop 6) = ("\x7b\x7d").toList then c
  else
    match parse (trim ((trim (stripCr raw)).drop 6)) with
    | none => c
    | some d => applyDoc c d

/-- `buffer.split('\n')` followed by `buffer = lines.pop()`: the complete
lines and the trailing incomplete remainder. -/
def splitNl : List Char → List (List Char) × List Char
  | [] => ([], [])
  | c :: rest =>
    if c = '\n' then
      let p := splitNl rest
      ([] :: p.1, p.2)
    else
      let p := splitNl rest
      match p.1 with
      | [] => ([], c :: p.2)
      | l :: ls => ((c :: l) :: ls, p.2)

/-- One `stream.on('data')` callback: append the chunk to the buffer,
split off the complete lines, keep the remainder buffered, and process
each complete line in order. -/
def processChunk (parse : List Char → Option DataDoc) (st : PState) (chunk : List Char) : PState :=
  let p := splitNl (st.buffer ++ chunk)
  { buffer := p.2, core := p.1.foldl (processLine parse) st.core }

/-- Initial parser state: every accumulator starts empty. -/
def initState : PState :=
  { buffer := [],
    core := { currentAnswer := [], threadUrlSlug := [], readWriteToken := [],
              lastEvent := [], tokens := [] } }

/-- Run the parser over a whole sequence of chunks. -/
def runChunks (parse : List Char → Option DataDoc) (chunks : List (List Char)) : PState :=
  chunks.foldl (processChunk parse) initState

/-- The `stream.on('end')` resolution value, built from the final
accumulator state. -/
def finalResponse (c : Core) : PerplexityResponse :=
  { success := true, answer := c.currentAnswer, threadUrlSlug := c.threadUrlSlug,
    readWriteToken := c.readWriteToken, fullResponse := c.currentAnswer.length }

/-- `processStreamingResponse`: feed all chunks, then resolve on end;
the second component is the ordered sequence of `onToken` calls. -/
def processStreamingResponse (parse : List Char → Option DataDoc)
    (chunks : List (List Char)) : PerplexityResponse × List (List Char) :=
  let st := runChunks parse chunks
  (finalResponse st.core, st.core.tokens)

/-- One character of input: a newline completes the buffered line, any
other character extends the buffer. Auxiliary reformulation of
`processChunk` used to prove chunk-boundary independence. -/
def feedChar (parse : List Char → Option DataDoc) (st : PState) (c : Char) : PState :=
  if c = '\n' then { buffer := [], core := processLine parse st.core st.buffer }
  else { st with buffer := st.buffer ++ [c] }

theorem splitNl_of_not_mem {l : List Char} (h : '\n' ∉ l) : splitNl l = ([], l) := by
  induction l with
  | nil => rfl
  | cons c rest ih =>
    simp only [List.mem_cons, not_or] at h
    have hc : ¬ c = '\n' := fun hcc => h.1 hcc.symm
    simp [splitNl, hc, ih h.2]

theorem splitNl_append_nl {a : List Char} (b : List Char) (h : '\n' ∉ a) :
    splitNl (a ++ '\n' :: b) = (a :: (splitNl b).1, (splitNl b).2) := by
  induction a with
  | nil => simp [splitNl]
  | cons c rest ih =>
    simp only [List.mem_cons, not_or] at h
    have hc : ¬ c = '\n' := fun hcc => h.1 hcc.symm
    simp [splitNl, hc, ih h.2]

theorem feedChar_buffer {parse : List Char → Option DataDoc} {st : PState} {c : Char}
    (h : '\n' ∉ st.buffer) (hc : c ≠ '\n') : '\n' ∉ (feedChar parse st c).buffer := by
  simp only [feedChar, if_neg hc]
  simp only [List.mem_append, List.mem_singleton, not_or]
  exact ⟨h, fun hcc => hc hcc.symm⟩

theorem foldl_feedChar_buffer (parse : List Char → Option DataDoc) (l : List Char)
    (st : PState) (h : '\n' ∉ st.buffer) : '\n' ∉ (l.foldl (feedChar parse) st).buffer := by
  induction l generalizing st with
  | nil => exact h
  | cons c rest ih =>
    by_cases hc : c = '\n'
    · subst hc
      exact ih _ (by simp [feedChar])
    · exact ih _ (feedChar_buffer h hc)

theorem processChunk_eq_foldl (parse : List Char → Option DataDoc) (chunk : List Char)
    (st : PState) (h : '\n' ∉ st.buffer) :
    processChunk parse st chunk = chunk.foldl (feedChar parse) st := by
  induction chunk generalizing st with
  | nil => simp [processChunk, splitNl_of_not_mem h]
  | cons c rest ih =>
    rw [List.foldl_cons]
    by_cases hc : c = '\n'
    · subst hc
      rw [← ih (feedChar parse st '\n') (by simp [feedChar])]
      simp [processChunk, feedChar, splitNl_append_nl rest h]
    · rw [← ih (feedChar parse st c) (feedChar_buffer h hc)]
      simp only [processChunk, feedChar, if_neg hc]
      rw [List.append_assoc, List.singleton_append]

theorem foldl_processChunk_eq (parse : List Char → Option DataDoc)
    (cs : List (List Char)) (st : PState) (h : '\n' ∉ st.buffer) :
    cs.foldl (processChunk parse) st = cs.flatten.foldl (feedChar parse) st := by
  induction cs generalizing st with
  | nil => rfl
  | cons ch cs ih =>
    rw [List.foldl_cons, List.flatten_cons, List.foldl_append,
      processChunk_eq_foldl parse ch st h]
    exact ih _ (foldl_feedChar_buffer parse ch st h)

theorem runChunks_eq_flatten (parse : List Char → Option DataDoc) (cs : List (List Char)) :
    runChunks parse cs = cs.flatten.foldl (feedChar parse) initState :=
  foldl_processChunk_eq parse cs initState (by simp [initState])

/-- A markdown block carrying the incremental chunk list `["ab"]`. -/
def mbA : MarkdownBlock := { chunks := some [some ("ab").toList], answer := none }

/-- An `ask_text` block wrapping `mbA`. -/
def blockA : Block := { intended_usage := ("ask_text").toList, markdown_block := some mbA }

/-- A data document whose only content is the chunk list `["ab"]`. -/
def docA : DataDoc := { thread_url_slug := none, read_write_token := none, blocks := some [some blockA] }

/-- A markdown block carrying no chunk list and the cumulative answer `"xyz"`. -/
def mbB : MarkdownBlock := { chunks := none, answer := some ("xyz").toList }

/-- An `ask_text` block wrapping `mbB`. -/
def blockB : Block := { intended_usage := ("ask_text").toList, markdown_block := some mbB }

/-- A data document carrying a thread slug and the cumulative-answer block `blockB`. -/
def docB : DataDoc := { thread_url_slug := some ("slug1").toList, read_write_token := none, blocks := some [some blockB] }

/-- A concrete stand-in for `JSON.parse` plus field projection: payload
`A` parses to `docA`, payload `B` parses to `docB`, everything else is
malformed. -/
def parseEx (s : List Char) : Option DataDoc :=
  if s = ("A").toList then some docA
  else if s = ("B").toList then some docB
  else none

/-- Text-level chunk independence: two partitions of the same decoded
character stream produce the same output (the split-buffer loop never
depends on where the decoded text was cut). -/
theorem textChunks_independence (parse : List Char → Option DataDoc)
    (cs1 cs2 : List (List Char)) (h : cs1.flatten = cs2.flatten) :
    processStreamingResponse parse cs1 = processStreamingResponse parse cs2 := by
  unfold processStreamingResponse
  rw [runChunks_eq_flatten, runChunks_eq_flatten, h]

/-- The replacement character U+FFFD produced by lossy UTF-8 decoding. -/
def replChar : Char := Char.ofNat 0xFFFD

/-- Modelled from the external runtime: Node's `Buffer.toString('utf8')`
replacement decoding, which the source calls once per chunk
(`buffer += chunk.toString()`), on the ASCII / two-byte fragment of
UTF-8: an ASCII byte decodes to itself; a lead byte `C2..DF` followed by
a continuation byte `80..BF` decodes to the encoded scalar; any other
byte — in particular a lead byte whose continuation lies in the next
chunk, or that orphaned continuation byte — decodes to U+FFFD. -/
def decodeUtf8 : List Nat → List Char
  | [] => []
  | [b] => if b < 0x80 then [Char.ofNat b] else [replChar]
  | b :: b2 :: rest =>
    if b < 0x80 then Char.ofNat b :: decodeUtf8 (b2 :: rest)
    else if 0xC2 ≤ b ∧ b ≤ 0xDF then
      if 0x80 ≤ b2 ∧ b2 ≤ 0xBF then
        Char.ofNat ((b - 0xC0) * 64 + (b2 - 0x80)) :: decodeUtf8 rest
      else replChar :: decodeUtf8 (b2 :: rest)
    else replChar :: decodeUtf8 (b2 :: rest)

/-- One `stream.on('data')` callback at the byte level:
`buffer += chunk.toString()` decodes each chunk separately and appends
the decoded text to the line buffer. -/
def processChunkBytes (parse : List Char → Option DataDoc) (st : PState)
    (chunk : List Nat) : PState :=
  processChunk parse st (decodeUtf8 chunk)

/-- `processStreamingResponse` over the byte chunks the stream actually
delivers. -/
def processStreamingBytes (parse : List Char → Option DataDoc)
    (chunks : List (List Nat)) : PerplexityResponse × List (List Char) :=
  let st := chunks.foldl (processChunkBytes parse) initState
  (finalResponse st.core, st.core.tokens)

/-- Latin small letter e with acute (U+00E9), the two-byte UTF-8
character used against C1. -/
def eAcute : Char := Char.ofNat 0xE9

/-- A parse function recognizing the one-character payload `é`. -/
def parseC1 (s : List Char) : Option DataDoc :=
  if s = [eAcute] then some docA else none

/-- The bytes of `"data: é\n"` (`é` is `C3 A9` in UTF-8). -/
def c1bytes : List Nat := [100, 97, 116, 97, 58, 32, 0xC3, 0xA9, 10]

theorem processStreamingBytes_eq (parse : List Char → Option DataDoc)
    (cs : List (List Nat)) :
    processStreamingBytes parse cs
      = processStreamingResponse parse (cs.map decodeUtf8) := by
  unfold processStreamingBytes processStreamingResponse runChunks processChunkBytes
  rw [List.foldl_map]

/-- Counterexample to C1 as stated: the same bytes `"data: é\n"`
delivered whole versus one byte per chunk are decoded per chunk by
`Buffer.toString`, so the split `é` becomes two U+FFFD replacement
characters and the token output and terminal `Response` differ between
the two partitions. -/
theorem C1_counterexample :
    [c1bytes].flatten = (c1bytes.map (fun b => [b])).flatten
    ∧ processStreamingBytes parseC1 [c1bytes]
        ≠ processStreamingBytes parseC1 (c1bytes.map (fun b => [b])) :=
  ⟨by decide, by decide⟩

/-- C1 amended: byte partitions whose per-chunk `Buffer.toString`
decodes concatenate to the same text — in particular every re-chunking
that never splits a multi-byte UTF-8 sequence, down to one byte per
chunk over ASCII — produce the same ordered token sequence delivered to
`onToken` and the same terminal `Response`. -/
theorem C1_decoded_chunk_independence (parse : List Char → Option DataDoc)
    (cs1 cs2 : List (List Nat))
    (h : (cs1.map decodeUtf8).flatten = (cs2.map decodeUtf8).flatten) :
    processStreamingBytes parse cs1 = processStreamingBytes parse cs2 := by
  rw [processStreamingBytes_eq, processStreamingBytes_eq]
  exact textChunks_independence parse _ _ h

/-- Witness for amended C1: the frame `"data: é\n"` delivered whole and
delivered byte by byte except for the two `é` bytes kept together gives
identical output (and does emit the token). -/
theorem C1_witness :
    ([c1bytes].map decodeUtf8).flatten
      = (([[100], [97], [116], [97], [58], [32], [0xC3, 0xA9], [10]]).map decodeUtf8).flatten
    ∧ processStreamingBytes parseC1 [c1bytes]
        = processStreamingBytes parseC1 [[100], [97], [116], [97], [58], [32], [0xC3, 0xA9], [10]] :=
  ⟨by decide, C1_decoded_chunk_independence parseC1 _ _ (by decide)⟩

/-- A markdown block with no chunk list and cumulative answer `a`. -/
def answerOnlyMb (a : List Char) : MarkdownBlock := { chunks := none, answer := some a }

/-- An `ask_text` block holding only a cumulative answer `a`. -/
def answerOnlyBlock (a : List Char) : Block :=
  { intended_usage := ("ask_text").toList, markdown_block := some (answerOnlyMb a) }

/-- A data document whose single content block carries only the
cumulative answer `a` (no chunk list, no metadata). -/
def answerDoc (a : List Char) : DataDoc :=
  { thread_url_slug := none, read_write_token := none, blocks := some [some (answerOnlyBlock a)] }

/-- C2: a data document whose answer-text block has no chunk list but a
cumulative answer `a` longer than the accumulated text emits exactly one
token, the suffix of `a` past the accumulated length (so of length
`L - K`), and sets the accumulated answer to `a`; the first `K`
characters are not re-emitted. -/
theorem C2_cumulative_answer_suffix (c : Core) (a : List Char)
    (hgate : c.lastEvent = [] ∨ c.lastEvent = ("message").toList)
    (hlen : c.currentAnswer.length < a.length) :
    applyDoc c (answerDoc a)
      = { c with tokens := c.tokens ++ [a.drop c.currentAnswer.length], currentAnswer := a }
    ∧ (a.drop c.currentAnswer.length).length = a.length - c.currentAnswer.length := by
  constructor
  · unfold applyDoc answerDoc
    rcases hgate with hg | hg <;>
      simp [hg, applyBlock, answerOnlyBlock, answerOnlyMb, hlen]
  · simp

/-- The concrete state for the C2 witness: `"ab"` already accumulated
and emitted, no event name set. -/
def c2w : Core :=
  { currentAnswer := ("ab").toList, threadUrlSlug := [], readWriteToken := [],
    lastEvent := [], tokens := [("ab").toList] }

/-- Witness for C2: with `"ab"` accumulated, a chunk-less snapshot
carrying `"xyz"` emits exactly the one-token suffix. -/
theorem C2_witness :
    applyDoc c2w (answerDoc (("xyz").toList))
      = { c2w with tokens := c2w.tokens ++ [(("xyz").toList).drop c2w.currentAnswer.length],
                   currentAnswer := ("xyz").toList } :=
  (C2_cumulative_answer_suffix c2w (("xyz").toList) (Or.inl rfl) (by decide)).1

theorem emitChunks_threadUrlSlug (chs : List (Option (List Char))) (c : Core) :
    (emitChunks c chs).threadUrlSlug = c.threadUrlSlug := by
  induction chs generalizing c with
  | nil => rfl
  | cons ch chs ih => cases ch <;> simp [emitChunks, List.foldl_cons] at ih ⊢ <;> exact ih _

theorem emitChunks_readWriteToken (chs : List (Option (List Char))) (c : Core) :
    (emitChunks c chs).readWriteToken = c.readWriteToken := by
  induction chs generalizing c with
  | nil => rfl
  | cons ch chs ih => cases ch <;> simp [emitChunks, List.foldl_cons] at ih ⊢ <;> exact ih _

theorem applyBlock_threadUrlSlug (c : Core) (b : Option Block) :
    (applyBlock c b).threadUrlSlug = c.threadUrlSlug := by
  cases b with
  | none => rfl
  | some bb =>
    unfold applyBlock
    repeat' split
    all_goals first
      | rfl
      | exact emitChunks_threadUrlSlug _ _

theorem applyBlock_readWriteToken (c : Core) (b : Option Block) :
    (applyBlock c b).readWriteToken = c.readWriteToken := by
  cases b with
  | none => rfl
  | some bb =>
    unfold applyBlock
    repeat' split
    all_goals first
      | rfl
      | exact emitChunks_readWriteToken _ _

theorem foldl_applyBlock_threadUrlSlug (bs : List (Option Block)) (c : Core) :
    (bs.foldl applyBlock c).threadUrlSlug = c.threadUrlSlug := by
  induction bs generalizing c with
  | nil => rfl
  | cons b bs ih => rw [List.foldl_cons, ih, applyBlock_threadUrlSlug]

theorem foldl_applyBlock_readWriteToken (bs : List (Option Block)) (c : Core) :
    (bs.foldl applyBlock c).readWriteToken = c.readWriteToken := by
  induction bs generalizing c with
  | nil => rfl
  | cons b bs ih => rw [List.foldl_cons, ih, applyBlock_readWriteToken]

theorem applyDoc_threadUrlSlug (c : Core) (d : DataDoc) :
    (applyDoc c d).threadUrlSlug = d.thread_url_slug.getD c.threadUrlSlug := by
  rcases d with ⟨ts, rt, bs⟩
  rcases ts with _ | s <;> rcases rt with _ | r <;> rcases bs with _ | l <;>
    unfold applyDoc <;> dsimp only <;> split <;>
    simp [foldl_applyBlock_threadUrlSlug]

theorem applyDoc_readWriteToken (c : Core) (d : DataDoc) :
    (applyDoc c d).readWriteToken = d.read_write_token.getD c.readWriteToken := by
  rcases d with ⟨ts, rt, bs⟩
  rcases ts with _ | s <;> rcases rt with _ | r <;> rcases bs with _ | l <;>
    unfold applyDoc <;> dsimp only <;> split <;>
    simp [foldl_applyBlock_readWriteToken]

theorem applyDoc_gated (c : Core) (d : DataDoc) (h1 : c.lastEvent ≠ [])
    (h2 : c.lastEvent ≠ ("message").toList) :
    (applyDoc c d).tokens = c.tokens ∧ (applyDoc c d).currentAnswer = c.currentAnswer := by
  rcases d with ⟨ts, rt, bs⟩
  rcases ts with _ | s <;> rcases rt with _ | r <;>
    unfold applyDoc <;> dsimp only <;> split <;>
    first
      | exact ⟨rfl, rfl⟩
      | exact absurd (And.intro h1 h2) (by assumption)

/-- C4: processing any parsed data document updates `threadUrlSlug` and
`readWriteToken` from the document whenever they are present, regardless
of the current event name, while the content blocks leave the token
output and accumulated answer untouched whenever the current event name
is set and differs from `"message"`. -/
theorem C4_metadata_unconditional_content_gated (c : Core) (d : DataDoc) :
    ((applyDoc c d).threadUrlSlug = d.thread_url_slug.getD c.threadUrlSlug
      ∧ (applyDoc c d).readWriteToken = d.read_write_token.getD c.readWriteToken)
    ∧ (c.lastEvent ≠ [] → c.lastEvent ≠ ("message").toList →
        (applyDoc c d).tokens = c.tokens ∧ (applyDoc c d).currentAnswer = c.currentAnswer) :=
  ⟨⟨applyDoc_threadUrlSlug c d, applyDoc_readWriteToken c d⟩,
    fun h1 h2 => applyDoc_gated c d h1 h2⟩

/-- Witness for C4: with event name `"other"` set, a document carrying
both metadata and a content block updates the slug but emits nothing. -/
theorem C4_witness :
    (applyDoc { currentAnswer := [], threadUrlSlug := [], readWriteToken := [],
                lastEvent := ("other").toList, tokens := [] } docB).tokens = [] :=
  ((C4_metadata_unconditional_content_gated
      { currentAnswer := [], threadUrlSlug := [], readWriteToken := [],
        lastEvent := ("other").toList, tokens := [] } docB).2
    (by decide) (by decide)).1

/-- C5: on stream end the parser resolves with exactly one `Response`
whose `answer` is the accumulated text, whose `threadUrlSlug` and
`readWriteToken` are the final (last-seen) side-field values, whose
`success` is `true`, and whose length field equals the accumulated
answer's length. -/
theorem C5_terminal_response (parse : List Char → Option DataDoc) (cs : List (List Char)) :
    processStreamingResponse parse cs
      = ({ success := true,
           answer := (runChunks parse cs).core.currentAnswer,
           threadUrlSlug := (runChunks parse cs).core.threadUrlSlug,
           readWriteToken := (runChunks parse cs).core.readWriteToken,
           fullResponse := (runChunks parse cs).core.currentAnswer.length },
         (runChunks parse cs).core.tokens)
    ∧ (processStreamingResponse parse cs).1.success = true
    ∧ (processStreamingResponse parse cs).1.fullResponse
        = (processStreamingResponse parse cs).1.answer.length :=
  ⟨rfl, rfl, rfl⟩

theorem strStarts_iff_exists {p l : List Char} : strStarts p l = true ↔ ∃ t, l = p ++ t := by
  induction p generalizing l with
  | nil => simp [strStarts]
  | cons a ps ih =>
    cases l with
    | nil => simp [strStarts]
    | cons c cs =>
      simp only [strStarts, Bool.and_eq_true, beq_iff_eq, ih, List.cons_append,
        List.cons.injEq]
      constructor
      · rintro ⟨rfl, t, rfl⟩
        exact ⟨t, rfl, rfl⟩
      · rintro ⟨t, rfl, rfl⟩
        exact ⟨rfl, t, rfl⟩

/-- A `data:` line whose payload fails to parse is processed to no
effect: the malformed frame is silently swallowed. -/
theorem processLine_skip_malformed (parse : List Char → Option DataDoc) (c : Core)
    (m : List Char) (hdata : strStarts (("data:").toList) (trim (stripCr m)) = true)
    (hbad : parse (trim ((trim (stripCr m)).drop 6)) = none) :
    processLine parse c m = c := by
  obtain ⟨t, ht⟩ := strStarts_iff_exists.mp hdata
  unfold processLine
  rw [ht] at hbad ⊢
  have hne : ¬ (("data:").toList ++ t = []) := by simp
  have hev : ¬ (strStarts (("event:").toList) (("data:").toList ++ t) = true) := by
    simp [strStarts]
  have hd : strStarts (("data:").toList) (("data:").toList ++ t) = true :=
    strStarts_iff_exists.mpr ⟨t, rfl⟩
  rw [if_neg hne, if_neg hev, if_neg (not_not_intro hd)]
  split
  · rfl
  · rw [hbad]

/-- Join a list of lines, terminating every line with a newline. -/
def unlines (ls : List (List Char)) : List Char :=
  ls.foldr (fun l acc => l ++ '\n' :: acc) []

theorem splitNl_cons_nl (x : List Char) :
    splitNl ('\n' :: x) = ([] :: (splitNl x).1, (splitNl x).2) := by
  simp [splitNl]

theorem splitNl_cons_other {c : Char} (hc : ¬ c = '\n') (x : List Char) :
    splitNl (c :: x)
      = (match (splitNl x).1 with
          | [] => ([], c :: (splitNl x).2)
          | l :: ls => ((c :: l) :: ls, (splitNl x).2)) := by
  simp [splitNl, hc]

theorem splitNl_append_of_rem_nil {a : List Char} (b : List Char)
    (h : (splitNl a).2 = []) :
    splitNl (a ++ b) = ((splitNl a).1 ++ (splitNl b).1, (splitNl b).2) := by
  induction a with
  | nil => simp [splitNl]
  | cons c a ih =>
    by_cases hc : c = '\n'
    · subst hc
      rw [splitNl_cons_nl] at h
      rw [List.cons_append, splitNl_cons_nl, splitNl_cons_nl, ih h]
      simp
    · rw [splitNl_cons_other hc] at h
      rw [List.cons_append, splitNl_cons_other hc, splitNl_cons_other hc]
      rcases hp : (splitNl a).1 with _ | ⟨l, ls⟩
      · rw [hp] at h
        simp at h
      · rw [hp] at h
        simp only at h
        rw [ih h, hp]
        simp

theorem splitNl_line_nl (l : List Char) :
    (splitNl (l ++ ['\n'])).2 = [] ∧ (splitNl (l ++ ['\n'])).1 ≠ [] := by
  induction l with
  | nil => simp [splitNl]
  | cons c l ih =>
    by_cases hc : c = '\n'
    · subst hc
      rw [List.cons_append, splitNl_cons_nl]
      exact ⟨ih.1, by simp⟩
    · rw [List.cons_append, splitNl_cons_other hc]
      rcases hp : (splitNl (l ++ ['\n'])).1 with _ | ⟨m, ms⟩
      · exact absurd hp ih.2
      · exact ⟨ih.1, by simp⟩

theorem unlines_cons (l : List Char) (ls : List (List Char)) :
    unlines (l :: ls) = (l ++ ['\n']) ++ unlines ls := by
  simp [unlines, List.foldr_cons, List.append_assoc]

theorem splitNl_unlines_rem (ls : List (List Char)) : (splitNl (unlines ls)).2 = [] := by
  induction ls with
  | nil => rfl
  | cons l ls ih =>
    rw [unlines_cons, splitNl_append_of_rem_nil _ (splitNl_line_nl l).1, ih]

theorem splitNl_unlines_append (xs ys : List (List Char)) :
    (splitNl (unlines (xs ++ ys))).1
      = (splitNl (unlines xs)).1 ++ (splitNl (unlines ys)).1 := by
  induction xs with
  | nil => simp [unlines, splitNl]
  | cons l xs ih =>
    rw [List.cons_append, unlines_cons, unlines_cons,
      splitNl_append_of_rem_nil _ (splitNl_line_nl l).1,
      splitNl_append_of_rem_nil _ (splitNl_line_nl l).1]
    simp [ih]

theorem splitNl_unlines_single {m : List Char} (h : '\n' ∉ m) :
    (splitNl (unlines [m])).1 = [m] := by
  have : unlines [m] = m ++ '\n' :: [] := by simp [unlines]
  rw [this, splitNl_append_nl [] h]
  rfl

/-- C3: an input whose lines include one `data:` line with an
unparseable payload produces exactly the same token sequence and
terminal `Response` as the same input with that line removed; earlier
and later lines are all still processed and the stream is not aborted. -/
theorem C3_malformed_line_removable (parse : List Char → Option DataDoc)
    (xs ys : List (List Char)) (m : List Char) (hnl : '\n' ∉ m)
    (hdata : strStarts (("data:").toList) (trim (stripCr m)) = true)
    (hbad : parse (trim ((trim (stripCr m)).drop 6)) = none) :
    processStreamingResponse parse [unlines (xs ++ m :: ys)]
      = processStreamingResponse parse [unlines (xs ++ ys)] := by
  have hm : m :: ys = [m] ++ ys := rfl
  unfold processStreamingResponse runChunks
  simp only [List.foldl_cons, List.foldl_nil]
  unfold processChunk
  simp only [initState, List.nil_append]
  rw [hm, splitNl_unlines_append xs ([m] ++ ys), splitNl_unlines_append [m] ys,
    splitNl_unlines_append xs ys, splitNl_unlines_single hnl]
  simp only [List.foldl_append, List.foldl_cons, List.foldl_nil]
  rw [processLine_skip_malformed parse _ m hdata hbad]

/-- Witness for C3: a malformed `data:` frame between two valid frames
changes nothing. -/
theorem C3_witness :
    processStreamingResponse parseEx
        [unlines ([("data: A").toList] ++ ("data: nope").toList :: [("data: B").toList])]
      = processStreamingResponse parseEx
          [unlines ([("data: A").toList] ++ [("data: B").toList])] :=
  C3_malformed_line_removable parseEx [("data: A").toList] [("data: B").toList]
    (("data: nope").toList) (by decide) (by decide) (by decide)

/-- Token-reconstruction invariant: the accumulated answer equals the
concatenation, in emission order, of the tokens emitted so far. -/
def tokenInv (c : Core) : Prop := c.currentAnswer = c.tokens.flatten

/-- The cumulative-answer fallback of a block is prefix-safe in state
`c`: if the block would take the fallback path, the accumulated answer
must be a starting segment of the snapshot. -/
def okBlock (c : Core) (b : Option Block) : Bool :=
  match b with
  | none => true
  | some bb =>
    if bb.intended_usage = ("ask_text").toList then
      match bb.markdown_block with
      | none => true
      | some mb =>
        match mb.chunks with
        | some (_ :: _) => true
        | _ =>
          match mb.answer with
          | some a =>
            if c.currentAnswer.length < a.length then
              decide (a.take c.currentAnswer.length = c.currentAnswer)
            else true
          | none => true
    else true

/-- Every block of the list is prefix-safe in the state it is applied
in. -/
def okBlocks (c : Core) : List (Option Block) → Bool
  | [] => true
  | b :: bs => okBlock c b && okBlocks (applyBlock c b) bs

/-- Every block of a document is prefix-safe (for ungated documents). -/
def okDoc (c : Core) (d : DataDoc) : Bool :=
  let c1 := match d.thread_url_slug with
    | some s => { c with threadUrlSlug := s }
    | none => c
  let c2 := match d.read_write_token with
    | some s => { c1 with readWriteToken := s }
    | none => c1
  if c2.lastEvent ≠ [] ∧ c2.lastEvent ≠ ("message").toList then true
  else
    match d.blocks with
    | some bs => okBlocks c2 bs
    | none => true

/-- The document carried by a `data:` line (if any) is prefix-safe. -/
def okLine (parse : List Char → Option DataDoc) (c : Core) (raw : List Char) : Bool :=
  if trim (stripCr raw) = [] then true
  else if strStarts (("event:").toList) (trim (stripCr raw)) then true
  else if ¬ strStarts (("data:").toList) (trim (stripCr raw)) then true
  else if trim ((trim (stripCr raw)).drop 6) = ("\x7b\x7d").toList then true
  else
    match parse (trim ((trim (stripCr raw)).drop 6)) with
    | none => true
    | some d => okDoc c d

/-- A character completing a line requires that line to be prefix-safe. -/
def okFeed (parse : List Char → Option DataDoc) (st : PState) (ch : Char) : Bool :=
  if ch = '\n' then okLine parse st.core st.buffer else true

/-- Every line completed while feeding the character stream is
prefix-safe: every cumulative-answer snapshot taken through the
fallback path extends the answer accumulated at that point. -/
def okRun (parse : List Char → Option DataDoc) (st : PState) : List Char → Bool
  | [] => true
  | ch :: rest => okFeed parse st ch && okRun parse (feedChar parse st ch) rest

theorem tokenInv_emitChunks (chs : List (Option (List Char))) (c : Core)
    (hg : tokenInv c) : tokenInv (emitChunks c chs) := by
  induction chs generalizing c with
  | nil => exact hg
  | cons ch chs ih =>
    rcases ch with _ | s
    · exact ih c hg
    · refine ih _ ?_
      unfold tokenInv at hg ⊢
      simp [hg, List.flatten_append]

theorem tokenInv_delta (c : Core) (a : List Char)
    (hg : tokenInv c) (hok : a.take c.currentAnswer.length = c.currentAnswer) :
    tokenInv { c with tokens := c.tokens ++ [a.drop c.currentAnswer.length],
                      currentAnswer := a } := by
  unfold tokenInv at hg ⊢
  dsimp only
  rw [List.flatten_append]
  simp only [List.flatten_cons, List.flatten_nil, List.append_nil]
  rw [← hg]
  conv_lhs => rw [← List.take_append_drop c.currentAnswer.length a]
  rw [hok]

theorem tokenInv_applyBlock (c : Core) (b : Option Block) (hg : tokenInv c)
    (hok : okBlock c b = true) : tokenInv (applyBlock c b) := by
  rcases b with _ | ⟨u, mb⟩
  · exact hg
  · by_cases hu : u = ("ask_text").toList
    · rcases mb with _ | ⟨chs, ans⟩
      · simpa [applyBlock, hu] using hg
      · rcases chs with _ | ⟨_ | ⟨x, xs⟩⟩
        · rcases ans with _ | a
          · simpa [applyBlock, hu] using hg
          · by_cases hlen : c.currentAnswer.length < a.length
            · have hok2 : a.take c.currentAnswer.length = c.currentAnswer := by
                simpa [okBlock, hu, hlen] using hok
              have e : applyBlock c (some ⟨u, some ⟨none, some a⟩⟩)
                  = { c with tokens := c.tokens ++ [a.drop c.currentAnswer.length],
                             currentAnswer := a } := by
                simp [applyBlock, hu, hlen]
              rw [e]
              exact tokenInv_delta c a hg hok2
            · simpa [applyBlock, hu, hlen] using hg
        · rcases ans with _ | a
          · simpa [applyBlock, hu] using hg
          · by_cases hlen : c.currentAnswer.length < a.length
            · have hok2 : a.take c.currentAnswer.length = c.currentAnswer := by
                simpa [okBlock, hu, hlen] using hok
              have e : applyBlock c (some ⟨u, some ⟨some [], some a⟩⟩)
                  = { c with tokens := c.tokens ++ [a.drop c.currentAnswer.length],
                             currentAnswer := a } := by
                simp [applyBlock, hu, hlen]
              rw [e]
              exact tokenInv_delta c a hg hok2
            · simpa [applyBlock, hu, hlen] using hg
        · have e : applyBlock c (some ⟨u, some ⟨some (x :: xs), ans⟩⟩)
              = emitChunks c (x :: xs) := by
            simp [applyBlock, hu]
          rw [e]
          exact tokenInv_emitChunks _ c hg
    · have e : applyBlock c (some ⟨u, mb⟩) = c := by
        unfold applyBlock
        dsimp only
        rw [if_neg hu]
      rw [e]
      exact hg

theorem tokenInv_okBlocks (bs : List (Option Block)) (c : Core) (hg : tokenInv c)
    (hok : okBlocks c bs = true) : tokenInv (bs.foldl applyBlock c) := by
  induction bs generalizing c with
  | nil => exact hg
  | cons b bs ih =>
    rw [okBlocks, Bool.and_eq_true] at hok
    exact ih _ (tokenInv_applyBlock c b hg hok.1) hok.2

theorem tokenInv_applyDoc (c : Core) (d : DataDoc) (hg : tokenInv c)
    (hok : okDoc c d = true) : tokenInv (applyDoc c d) := by
  rcases d with ⟨ts, rt, bs⟩
  rcases ts with _ | s <;> rcases rt with _ | r <;>
    (unfold okDoc at hok
     unfold applyDoc
     dsimp only at hok ⊢
     split at hok
     · rename_i hgate
       rw [if_pos hgate]
       exact hg
     · rename_i hgate
       rw [if_neg hgate]
       rcases bs with _ | l
       · exact hg
       · exact tokenInv_okBlocks l _ hg hok)

theorem tokenInv_processLine (parse : List Char → Option DataDoc) (c : Core)
    (raw : List Char) (hg : tokenInv c) (hok : okLine parse c raw = true) :
    tokenInv (processLine parse c raw) := by
  unfold processLine
  unfold okLine at hok
  split_ifs at hok ⊢
  all_goals try exact hg
  rcases hp : parse (trim ((trim (stripCr raw)).drop 6)) with _ | d
  · exact hg
  · rw [hp] at hok
    dsimp only at hok
    exact tokenInv_applyDoc c d hg hok

theorem tokenInv_foldl_feedChar (parse : List Char → Option DataDoc) (l : List Char)
    (st : PState) (hg : tokenInv st.core) (hok : okRun parse st l = true) :
    tokenInv ((l.foldl (feedChar parse) st).core) := by
  induction l generalizing st with
  | nil => exact hg
  | cons ch rest ih =>
    rw [okRun, Bool.and_eq_true] at hok
    rw [List.foldl_cons]
    refine ih _ ?_ hok.2
    have h1 := hok.1
    unfold okFeed at h1
    unfold feedChar
    by_cases hc : ch = '\n'
    · rw [if_pos hc] at h1
      rw [if_pos hc]
      exact tokenInv_processLine parse st.core st.buffer hg h1
    · rw [if_neg hc]
      exact hg

/-- Counterexample to C10 as stated: after the chunk `"ab"` has been
emitted, a chunk-less snapshot whose cumulative answer `"xyz"` does not
extend it makes the terminal answer differ from the concatenation of
the emitted tokens (`"abz"` vs `"xyz"`). -/
theorem C10_counterexample :
    (processStreamingResponse parseEx [("data: A\ndata: B\n").toList]).2.flatten
      ≠ (processStreamingResponse parseEx [("data: A\ndata: B\n").toList]).1.answer := by
  decide

/-- C10 amended: whenever every cumulative-answer snapshot taken through
the chunk-less fallback path extends the answer accumulated at that
point (`okRun`), the terminal `Response.answer` equals the
concatenation, in emission order, of all tokens delivered to `onToken`. -/
theorem C10_answer_eq_token_concat (parse : List Char → Option DataDoc)
    (cs : List (List Char)) (hok : okRun parse initState cs.flatten = true) :
    (processStreamingResponse parse cs).1.answer
      = (processStreamingResponse parse cs).2.flatten := by
  have h := tokenInv_foldl_feedChar parse cs.flatten initState rfl hok
  unfold processStreamingResponse
  rw [runChunks_eq_flatten]
  exact h

/-- Witness for amended C10: a run exercising both the chunk path and a
prefix-extending fallback snapshot reconstructs the answer from its
tokens. -/
theorem C10_witness :
    okRun parseEx initState ([("data: B\ndata: A\n").toList].flatten) = true
    ∧ (processStreamingResponse parseEx [("data: B\ndata: A\n").toList]).1.answer
        = (processStreamingResponse parseEx [("data: B\ndata: A\n").toList]).2.flatten :=
  ⟨by decide, C10_answer_eq_token_concat parseEx [("data: B\ndata: A\n").toList] (by decide)⟩

/-- `IPerplexityMessage`: timestamps are modelled as `Nat` instants. -/
structure Message where
  id : List Char
  content : List Char
  timestamp : Nat
  isUser : Bool
  response : Option PerplexityResponse
deriving DecidableEq, Repr

/-- `IPerplexityConversation`. -/
structure Conversation where
  id : List Char
  title : List Char
  messages : List Message
  createdAt : Nat
  updatedAt : Nat
deriving DecidableEq, Repr

/-- The service's state: `_isAuthenticated`, the `_conversations` map
(a JavaScript `Map` keyed by `Conversation.id`, modelled as its values
in insertion order), and the durable-storage slot holding the last
stored snapshot (`none` when nothing was ever stored). -/
structure ServiceState where
  isAuthenticated : Bool
  conversations : List Conversation
  stored : Option (List Conversation)
deriving DecidableEq, Repr

/-- `Map.get`: the unique entry with the given id. -/
def mapGet (m : List Conversation) (i : List Char) : Option Conversation :=
  m.find? (fun c => c.id == i)

/-- `Map.set`: replace the entry with the same key in place, or append
a new entry at the end (JavaScript insertion-order semantics). -/
def mapSet (m : List Conversation) (c : Conversation) : List Conversation :=
  if m.any (fun x => x.id == c.id) then
    m.map (fun x => if x.id == c.id then c else x)
  else m ++ [c]

/-- `Map.delete`: unconditional removal, no error when absent. -/
def mapDelete (m : List Conversation) (i : List Char) : List Conversation :=
  m.filter (fun x => ! (x.id == i))

/-- `saveConversations`: store the full snapshot of the map's values. -/
def saveConversations (st : ServiceState) : ServiceState :=
  { st with stored := some st.conversations }

/-- `createConversation`: fresh conversation with the given or default
title, empty message list, persisted immediately. `none` for the title
models an absent or empty (falsy) argument. -/
def createConversation (st : ServiceState) (title : Option (List Char))
    (newId : List Char) (t1 t2 : Nat) : ServiceState × Conversation :=
  let conv : Conversation :=
    { id := newId, title := title.getD (("New Conversation").toList),
      messages := [], createdAt := t1, updatedAt := t2 }
  let st1 := saveConversations { st with conversations := mapSet st.conversations conv }
  (st1, conv)

/-- `getConversations`: all values sorted by `updatedAt` descending
(JavaScript `Array.prototype.sort` is stable; `mergeSort` models it). -/
def getConversations (st : ServiceState) : List Conversation :=
  List.mergeSort st.conversations (fun a b => decide (b.updatedAt ≤ a.updatedAt))

/-- `deleteConversation`: remove then persist. -/
def deleteConversation (st : ServiceState) (i : List Char) : ServiceState :=
  saveConversations { st with conversations := mapDelete st.conversations i }

/-- `clearConversations`: clear then persist. -/
def clearConversations (st : ServiceState) : ServiceState :=
  saveConversations { st with conversations := [] }

/-- Result of `PerplexityService.sendMessage`: thrown errors are
outcomes (`notAuthenticated`, `notFound`, `exchangeFailed`), success
returns the user message id. -/
inductive SendOutcome where
  | notAuthenticated
  | notFound
  | exchangeFailed
  | completed (messageId : List Char)
deriving DecidableEq, Repr

/-- The user `Message` appended synchronously before any network
activity. -/
def mkUserMsg (content msgId : List Char) (tu1 : Nat) : Message :=
  { id := msgId, content := content, timestamp := tu1, isUser := true, response := none }

/-- The assistant `Message` created from the client's final response. -/
def mkAsstMsg (asstId : List Char) (ta1 : Nat) (resp : PerplexityResponse) : Message :=
  { id := asstId, content := resp.answer, timestamp := ta1, isUser := false,
    response := some resp }

/-- Append the user message and bump `updatedAt`. -/
def withUserMsg (conv : Conversation) (content msgId : List Char) (tu1 tu2 : Nat) :
    Conversation :=
  { conv with messages := conv.messages ++ [mkUserMsg content msgId tu1], updatedAt := tu2 }

/-- The title rewrite value: the content, truncated to 50 characters
plus an ellipsis when longer. -/
def truncTitle (content : List Char) : List Char :=
  if 50 < content.length then content.take 50 ++ ("...").toList else content

/-- Append the assistant message, bump `updatedAt`, and rewrite the
title when the conversation now has exactly two messages and still
carries the default title. -/
def withAsstMsg (conv : Conversation) (content asstId : List Char) (ta1 ta2 : Nat)
    (resp : PerplexityResponse) : Conversation :=
  let conv2 := { conv with messages := conv.messages ++ [mkAsstMsg asstId ta1 resp],
                           updatedAt := ta2 }
  if conv2.messages.length = 2 ∧ conv2.title = ("New Conversation").toList then
    { conv2 with title := truncTitle content }
  else conv2

/-- The body of `sendMessage` after the conversation is resolved: append
the user message (no save), then either rethrow the client failure
(`result = none`) or append the assistant message, rewrite the title on
the first completed exchange, save, and return the user message id.
The client call's outcome and all `Date.now()` instants and generated
ids are parameters. -/
def sendCore (st : ServiceState) (content : List Char) (conv : Conversation)
    (msgId asstId : List Char) (tu1 tu2 ta1 ta2 : Nat)
    (result : Option PerplexityResponse) : ServiceState × SendOutcome :=
  let conv1 := withUserMsg conv content msgId tu1 tu2
  let st1 := { st with conversations := mapSet st.conversations conv1 }
  match result with
  | none => (st1, SendOutcome.exchangeFailed)
  | some resp =>
    let conv3 := withAsstMsg conv1 content asstId ta1 ta2 resp
    (saveConversations { st1 with conversations := mapSet st1.conversations conv3 },
      SendOutcome.completed msgId)

/-- `sendMessage`: authentication precondition, conversation resolution
(including implicit creation when no id is supplied), then `sendCore`. -/
def sendMessage (st : ServiceState) (content : List Char)
    (conversationId : Option (List Char)) (msgId asstId newConvId : List Char)
    (tc1 tc2 tu1 tu2 ta1 ta2 : Nat) (result : Option PerplexityResponse) :
    ServiceState × SendOutcome :=
  if ¬ st.isAuthenticated then (st, SendOutcome.notAuthenticated)
  else
    match conversationId with
    | some cid =>
      match mapGet st.conversations cid with
      | none => (st, SendOutcome.notFound)
      | some conv => sendCore st content conv msgId asstId tu1 tu2 ta1 ta2 result
    | none =>
      let p := createConversation st none newConvId tc1 tc2
      sendCore p.1 content p.2 msgId asstId tu1 tu2 ta1 ta2 result

theorem mapGet_id {m : List Conversation} {i : List Char} {c : Conversation}
    (h : mapGet m i = some c) : c.id = i := by
  have := List.find?_some h
  simpa using this

theorem find?_cons_ne (p : Conversation → Bool) (x : Conversation) (m : List Conversation)
    (h : p x = false) : List.find? p (x :: m) = List.find? p m := by
  simp [List.find?_cons, h]

theorem mapGet_mapSet (m : List Conversation) (c : Conversation) :
    mapGet (mapSet m c) c.id = some c := by
  induction m with
  | nil => simp [mapGet, mapSet]
  | cons x m ih =>
    by_cases hx : (x.id == c.id) = true
    · have hany : ((x :: m).any (fun y => y.id == c.id)) = true := by
        simp [List.any_cons, hx]
      unfold mapSet
      rw [if_pos hany, List.map_cons, if_pos hx]
      simp [mapGet]
    · unfold mapSet at ih ⊢
      rw [List.any_cons]
      by_cases hm : (m.any (fun y => y.id == c.id)) = true
      · rw [if_pos (by simp [hx, hm]), List.map_cons, if_neg hx]
        rw [if_pos hm] at ih
        unfold mapGet at ih ⊢
        rw [find?_cons_ne _ x _ (by simpa using hx)]
        exact ih
      · rw [if_neg (by simp [hx, hm]), List.cons_append]
        rw [if_neg hm] at ih
        unfold mapGet at ih ⊢
        rw [find?_cons_ne _ x _ (by simpa using hx)]
        exact ih

theorem mem_mapSet {y : Conversation} {m : List Conversation} {c : Conversation}
    (h : y ∈ mapSet m c) : y = c ∨ (y ∈ m ∧ (y.id == c.id) = false) := by
  unfold mapSet at h
  split at h
  · rw [List.mem_map] at h
    obtain ⟨x, hx, hfx⟩ := h
    by_cases hid : (x.id == c.id) = true
    · rw [if_pos hid] at hfx
      exact Or.inl hfx.symm
    · rw [if_neg hid] at hfx
      subst hfx
      exact Or.inr ⟨hx, by simpa using hid⟩
  · rw [List.mem_append, List.mem_singleton] at h
    rcases h with hy | hy
    · rename_i hany
      refine Or.inr ⟨hy, ?_⟩
      by_contra hne
      have : (y.id == c.id) = true := by
        cases hb : (y.id == c.id)
        · exact absurd hb hne
        · rfl
      exact hany (List.any_of_mem hy this)
    · exact Or.inl hy

theorem self_mem_mapSet (m : List Conversation) (c : Conversation) :
    c ∈ mapSet m c := by
  unfold mapSet
  split
  · rename_i hany
    rw [List.any_eq_true] at hany
    obtain ⟨x, hx, hid⟩ := hany
    rw [List.mem_map]
    exact ⟨x, hx, by rw [if_pos hid]⟩
  · simp

theorem withUserMsg_id (conv : Conversation) (content msgId : List Char) (tu1 tu2 : Nat) :
    (withUserMsg conv content msgId tu1 tu2).id = conv.id := rfl

theorem withAsstMsg_id (conv : Conversation) (content asstId : List Char) (ta1 ta2 : Nat)
    (resp : PerplexityResponse) :
    (withAsstMsg conv content asstId ta1 ta2 resp).id = conv.id := by
  unfold withAsstMsg
  dsimp only
  split <;> rfl

theorem withAsstMsg_updatedAt (conv : Conversation) (content asstId : List Char)
    (ta1 ta2 : Nat) (resp : PerplexityResponse) :
    (withAsstMsg conv content asstId ta1 ta2 resp).updatedAt = ta2 := by
  unfold withAsstMsg
  dsimp only
  split <;> rfl

theorem sendCore_none (st : ServiceState) (content : List Char) (conv : Conversation)
    (msgId asstId : List Char) (tu1 tu2 ta1 ta2 : Nat) :
    sendCore st content conv msgId asstId tu1 tu2 ta1 ta2 none
      = ({ st with
           conversations := mapSet st.conversations (withUserMsg conv content msgId tu1 tu2) },
         SendOutcome.exchangeFailed) := rfl

theorem sendCore_some (st : ServiceState) (content : List Char) (conv : Conversation)
    (msgId asstId : List Char) (tu1 tu2 ta1 ta2 : Nat) (resp : PerplexityResponse) :
    sendCore st content conv msgId asstId tu1 tu2 ta1 ta2 (some resp)
      = (saveConversations
          { st with
            conversations := mapSet
              (mapSet st.conversations (withUserMsg conv content msgId tu1 tu2))
              (withAsstMsg (withUserMsg conv content msgId tu1 tu2) content asstId ta1 ta2
                resp) },
         SendOutcome.completed msgId) := rfl

theorem sendMessage_found (st : ServiceState) (content cid : List Char) (conv : Conversation)
    (msgId asstId newConvId : List Char) (tc1 tc2 tu1 tu2 ta1 ta2 : Nat)
    (result : Option PerplexityResponse)
    (hauth : st.isAuthenticated = true)
    (hfind : mapGet st.conversations cid = some conv) :
    sendMessage st content (some cid) msgId asstId newConvId tc1 tc2 tu1 tu2 ta1 ta2 result
      = sendCore st content conv msgId asstId tu1 tu2 ta1 ta2 result := by
  unfold sendMessage
  rw [if_neg (fun hn => hn hauth)]
  dsimp only
  rw [hfind]

/-- C6: after `createConversation()` followed by `sendMessage` on that
conversation whose client exchange fails, the call reports the failure
and the conversation still exists with exactly one message: the user
message (`isUser = true`, the given content), appended before the
exchange and not rolled back; no assistant message is present. -/
theorem C6_failed_exchange_keeps_user_message
    (st0 st1 : ServiceState) (conv : Conversation)
    (content nid msgId asstId : List Char) (tc1 tc2 tu1 tu2 ta1 ta2 : Nat)
    (hauth : st0.isAuthenticated = true)
    (hcreate : createConversation st0 none nid tc1 tc2 = (st1, conv)) :
    (sendMessage st1 content (some conv.id) msgId asstId nid tc1 tc2 tu1 tu2 ta1 ta2 none).2
      = SendOutcome.exchangeFailed
    ∧ mapGet (sendMessage st1 content (some conv.id) msgId asstId nid
          tc1 tc2 tu1 tu2 ta1 ta2 none).1.conversations conv.id
      = some { conv with messages := [mkUserMsg content msgId tu1], updatedAt := tu2 }
    ∧ (mkUserMsg content msgId tu1).isUser = true
    ∧ (mkUserMsg content msgId tu1).content = content := by
  have h1 : st1 = (createConversation st0 none nid tc1 tc2).1 := by rw [hcreate]
  have h2 : conv = (createConversation st0 none nid tc1 tc2).2 := by rw [hcreate]
  have hmsgs : conv.messages = [] := by
    rw [h2]
    rfl
  have hauth1 : st1.isAuthenticated = true := by
    rw [h1]
    exact hauth
  have hfind : mapGet st1.conversations conv.id = some conv := by
    rw [h1, h2]
    exact mapGet_mapSet st0.conversations _
  rw [sendMessage_found st1 content conv.id conv msgId asstId nid tc1 tc2 tu1 tu2 ta1 ta2
    none hauth1 hfind, sendCore_none]
  have hw : withUserMsg conv content msgId tu1 tu2
      = { conv with messages := [mkUserMsg content msgId tu1], updatedAt := tu2 } := by
    unfold withUserMsg
    rw [hmsgs]
    rfl
  refine ⟨rfl, ?_, rfl, rfl⟩
  dsimp only
  rw [hw]
  exact mapGet_mapSet _ _

/-- Witness for C6: a concrete failed exchange reports the failure. -/
theorem C6_witness :
    (sendMessage (createConversation
        { isAuthenticated := true, conversations := [], stored := none }
        none (("n1").toList) 0 0).1
      (("hi").toList)
      (some (createConversation { isAuthenticated := true, conversations := [], stored := none }
        none (("n1").toList) 0 0).2.id)
      (("m1").toList) (("m2").toList) (("n1").toList) 0 0 2 3 4 5 none).2
      = SendOutcome.exchangeFailed :=
  (C6_failed_exchange_keeps_user_message
    { isAuthenticated := true, conversations := [], stored := none }
    (createConversation { isAuthenticated := true, conversations := [], stored := none }
      none (("n1").toList) 0 0).1
    (createConversation { isAuthenticated := true, conversations := [], stored := none }
      none (("n1").toList) 0 0).2
    (("hi").toList) (("n1").toList) (("m1").toList) (("m2").toList) 0 0 2 3 4 5
    (by decide) rfl).1

theorem sendCore_stored (st : ServiceState) (content : List Char) (conv : Conversation)
    (msgId asstId : List Char) (tu1 tu2 ta1 ta2 : Nat) (result : Option PerplexityResponse)
    (mid : List Char)
    (h : (sendCore st content conv msgId asstId tu1 tu2 ta1 ta2 result).2
          = SendOutcome.completed mid) :
    (sendCore st content conv msgId asstId tu1 tu2 ta1 ta2 result).1.stored
      = some (sendCore st content conv msgId asstId tu1 tu2 ta1 ta2 result).1.conversations := by
  rcases result with _ | resp
  · exact absurd h (by simp [sendCore_none])
  · rfl

/-- C9 amended: the durable snapshot equals the in-memory conversation
set after `createConversation`, `deleteConversation`,
`clearConversations`, and every `sendMessage` that completes
successfully — but not after a `sendMessage` whose exchange fails,
which appends the user message in memory without persisting it (see the
counterexample). -/
theorem C9_storage_synced_amended
    (st : ServiceState) (title : Option (List Char)) (nid i : List Char) (t1 t2 : Nat)
    (content : List Char) (conversationId : Option (List Char))
    (msgId asstId newConvId : List Char) (tc1 tc2 tu1 tu2 ta1 ta2 : Nat)
    (result : Option PerplexityResponse) :
    ((createConversation st title nid t1 t2).1.stored
        = some (createConversation st title nid t1 t2).1.conversations)
    ∧ ((deleteConversation st i).stored = some (deleteConversation st i).conversations)
    ∧ ((clearConversations st).stored = some (clearConversations st).conversations)
    ∧ (∀ mid,
        (sendMessage st content conversationId msgId asstId newConvId
            tc1 tc2 tu1 tu2 ta1 ta2 result).2 = SendOutcome.completed mid →
        (sendMessage st content conversationId msgId asstId newConvId
            tc1 tc2 tu1 tu2 ta1 ta2 result).1.stored
          = some (sendMessage st content conversationId msgId asstId newConvId
              tc1 tc2 tu1 tu2 ta1 ta2 result).1.conversations) := by
  refine ⟨rfl, rfl, rfl, ?_⟩
  intro mid h
  unfold sendMessage at h ⊢
  by_cases hA : st.isAuthenticated = true
  · rw [if_neg (fun hn => hn hA)] at h ⊢
    rcases conversationId with _ | cid
    · exact sendCore_stored _ _ _ _ _ _ _ _ _ _ mid h
    · dsimp only at h ⊢
      rcases hg : mapGet st.conversations cid with _ | conv
      · rw [hg] at h
        exact absurd h (by simp)
      · rw [hg] at h
        dsimp only at h ⊢
        exact sendCore_stored _ _ _ _ _ _ _ _ _ _ mid h
  · rw [if_pos hA] at h
    exact absurd h (by simp)

/-- A synced one-conversation state for the C9 counterexample. -/
def c9conv : Conversation :=
  { id := ("c1").toList, title := ("New Conversation").toList, messages := [],
    createdAt := 0, updatedAt := 0 }

/-- The service state holding `c9conv`, already persisted. -/
def c9state : ServiceState :=
  { isAuthenticated := true, conversations := [c9conv], stored := some [c9conv] }

/-- Counterexample to C9 as stated: starting from a synced store, a
`sendMessage` whose exchange fails rethrows with the user message
appended in memory but never saved, so the durable snapshot no longer
equals the in-memory conversation set. -/
theorem C9_counterexample :
    c9state.stored = some c9state.conversations
    ∧ (sendMessage c9state (("hi").toList) (some (("c1").toList)) (("m1").toList)
        (("m2").toList) (("n1").toList) 1 1 2 3 4 5 none).2 = SendOutcome.exchangeFailed
    ∧ (sendMessage c9state (("hi").toList) (some (("c1").toList)) (("m1").toList)
        (("m2").toList) (("n1").toList) 1 1 2 3 4 5 none).1.stored
      ≠ some (sendMessage c9state (("hi").toList) (some (("c1").toList)) (("m1").toList)
          (("m2").toList) (("n1").toList) 1 1 2 3 4 5 none).1.conversations := by
  refine ⟨rfl, by decide, by decide⟩

/-- Witness for amended C9: a successful concrete `sendMessage` leaves
the snapshot synced. -/
theorem C9_witness :
    (sendMessage c9state (("hi").toList) (some (("c1").toList)) (("m1").toList)
        (("m2").toList) (("n1").toList) 1 1 2 3 4 5
        (some { success := true, answer := ("ok").toList, threadUrlSlug := [],
                readWriteToken := [], fullResponse := 2 })).1.stored
      = some (sendMessage c9state (("hi").toList) (some (("c1").toList)) (("m1").toList)
          (("m2").toList) (("n1").toList) 1 1 2 3 4 5
          (some { success := true, answer := ("ok").toList, threadUrlSlug := [],
                  readWriteToken := [], fullResponse := 2 })).1.conversations :=
  (C9_storage_synced_amended c9state none [] [] 0 0 (("hi").toList)
    (some (("c1").toList)) (("m1").toList) (("m2").toList) (("n1").toList) 1 1 2 3 4 5
    (some { success := true, answer := ("ok").toList, threadUrlSlug := [],
            readWriteToken := [], fullResponse := 2 })).2.2.2
    (("m1").toList) (by decide)

theorem mapGet_mapSet_of_id (m : List Conversation) (c : Conversation) (i : List Char)
    (hi : c.id = i) : mapGet (mapSet m c) i = some c := by
  rw [← hi]
  exact mapGet_mapSet m c

theorem withAsstMsg_of_first_exchange (conv : Conversation)
    (content msgId asstId : List Char) (tu1 tu2 ta1 ta2 : Nat) (resp : PerplexityResponse)
    (hm : conv.messages = []) (ht : conv.title = ("New Conversation").toList) :
    withAsstMsg (withUserMsg conv content msgId tu1 tu2) content asstId ta1 ta2 resp
      = { conv with
          title := truncTitle content,
          messages := [mkUserMsg content msgId tu1, mkAsstMsg asstId ta1 resp],
          updatedAt := ta2 } := by
  unfold withAsstMsg withUserMsg
  dsimp only
  rw [hm, ht]
  simp

theorem withAsstMsg_title_of_ge_two (conv : Conversation)
    (content msgId asstId : List Char) (tu1 tu2 ta1 ta2 : Nat) (resp : PerplexityResponse)
    (hm : 2 ≤ conv.messages.length) :
    (withAsstMsg (withUserMsg conv content msgId tu1 tu2) content asstId ta1 ta2 resp).title
      = conv.title := by
  unfold withAsstMsg withUserMsg
  dsimp only
  split
  · rename_i hcc
    exfalso
    have hlen := hcc.1
    simp only [List.length_append, List.length_cons, List.length_nil] at hlen
    omega
  · rfl

/-- C7: a successful `sendMessage` that brings a default-titled
conversation from zero to exactly two messages (the user and assistant
messages) rewrites its title to the content, truncated to 50 characters
plus `"..."` when longer; and any `sendMessage` on a conversation that
already has at least two messages leaves the title unchanged. -/
theorem C7_title_rewrite_on_first_exchange
    (st : ServiceState) (cid : List Char) (conv : Conversation)
    (content msgId asstId newConvId : List Char) (tc1 tc2 tu1 tu2 ta1 ta2 : Nat)
    (resp : PerplexityResponse)
    (hauth : st.isAuthenticated = true)
    (hfind : mapGet st.conversations cid = some conv) :
    (conv.messages = [] → conv.title = ("New Conversation").toList →
      ∃ c2, mapGet (sendMessage st content (some cid) msgId asstId newConvId
            tc1 tc2 tu1 tu2 ta1 ta2 (some resp)).1.conversations cid = some c2
        ∧ c2.title = truncTitle content
        ∧ truncTitle content
            = (if 50 < content.length then content.take 50 ++ ("...").toList else content)
        ∧ c2.messages.length = 2)
    ∧ (∀ result : Option PerplexityResponse, 2 ≤ conv.messages.length →
      ∃ c2, mapGet (sendMessage st content (some cid) msgId asstId newConvId
            tc1 tc2 tu1 tu2 ta1 ta2 result).1.conversations cid = some c2
        ∧ c2.title = conv.title) := by
  have hid : conv.id = cid := mapGet_id hfind
  constructor
  · intro hm ht
    rw [sendMessage_found st content cid conv msgId asstId newConvId
        tc1 tc2 tu1 tu2 ta1 ta2 (some resp) hauth hfind, sendCore_some,
      withAsstMsg_of_first_exchange conv content msgId asstId tu1 tu2 ta1 ta2 resp hm ht]
    refine ⟨{ conv with
              title := truncTitle content,
              messages := [mkUserMsg content msgId tu1, mkAsstMsg asstId ta1 resp],
              updatedAt := ta2 }, ?_, rfl, rfl, rfl⟩
    exact mapGet_mapSet_of_id _ _ _ hid
  · intro result hm2
    rcases result with _ | r2
    · rw [sendMessage_found st content cid conv msgId asstId newConvId
          tc1 tc2 tu1 tu2 ta1 ta2 none hauth hfind, sendCore_none]
      refine ⟨withUserMsg conv content msgId tu1 tu2, ?_, rfl⟩
      exact mapGet_mapSet_of_id _ _ _ hid
    · rw [sendMessage_found st content cid conv msgId asstId newConvId
          tc1 tc2 tu1 tu2 ta1 ta2 (some r2) hauth hfind, sendCore_some]
      refine ⟨withAsstMsg (withUserMsg conv content msgId tu1 tu2) content asstId ta1 ta2 r2,
        ?_, ?_⟩
      · refine mapGet_mapSet_of_id _ _ _ ?_
        rw [withAsstMsg_id, withUserMsg_id]
        exact hid
      · exact withAsstMsg_title_of_ge_two conv content msgId asstId tu1 tu2 ta1 ta2 r2 hm2

/-- A concrete successful client response used by witnesses. -/
def respW : PerplexityResponse :=
  { success := true, answer := ("ok").toList, threadUrlSlug := [],
    readWriteToken := [], fullResponse := 2 }

/-- Witness for C7: sending `"hi"` to a fresh default-titled
conversation retitles it to `"hi"` with two messages. -/
theorem C7_witness :
    ∃ c2, mapGet (sendMessage c9state (("hi").toList) (some (("c1").toList)) (("m1").toList)
        (("m2").toList) (("n1").toList) 1 1 2 3 4 5 (some respW)).1.conversations
        (("c1").toList) = some c2
      ∧ c2.title = truncTitle (("hi").toList)
      ∧ truncTitle (("hi").toList)
          = (if 50 < (("hi").toList).length
              then (("hi").toList).take 50 ++ ("...").toList else (("hi").toList))
      ∧ c2.messages.length = 2 :=
  (C7_title_rewrite_on_first_exchange c9state (("c1").toList) c9conv (("hi").toList)
    (("m1").toList) (("m2").toList) (("n1").toList) 1 1 2 3 4 5 respW
    (by decide) (by decide)).1 rfl rfl

theorem getConversations_sorted (s : ServiceState) :
    (getConversations s).Sorted (fun a b => b.updatedAt ≤ a.updatedAt) := by
  have hp : ((List.mergeSort s.conversations
        (fun a b => decide (b.updatedAt ≤ a.updatedAt))).Pairwise
      (fun a b => (decide (b.updatedAt ≤ a.updatedAt)) = true)) :=
    List.sorted_mergeSort
      (by
        intro a b c hab hbc
        simp only [decide_eq_true_eq] at hab hbc ⊢
        omega)
      (by
        intro a b
        simp only [Bool.or_eq_true, decide_eq_true_eq]
        omega)
      s.conversations
  unfold getConversations
  exact hp.imp (fun h => by simpa using h)

theorem getConversations_perm (s : ServiceState) :
    (getConversations s).Perm s.conversations :=
  List.mergeSort_perm s.conversations _

theorem head_is_fresh (L M : List Conversation) (c3 : Conversation)
    (hperm : L.Perm M) (hsorted : L.Sorted (fun a b => b.updatedAt ≤ a.updatedAt))
    (hmem : c3 ∈ M)
    (hdom : ∀ y ∈ M, y.id ≠ c3.id → y.updatedAt < c3.updatedAt)
    (huniq : ∀ y ∈ M, y.id = c3.id → y = c3) :
    L.head? = some c3 := by
  have hc3L : c3 ∈ L := hperm.mem_iff.mpr hmem
  cases L with
  | nil => exact absurd hc3L (List.not_mem_nil c3)
  | cons h t =>
    rw [List.sorted_cons] at hsorted
    have hhM : h ∈ M := hperm.mem_iff.mp (List.mem_cons_self h t)
    by_cases hhid : h.id = c3.id
    · rw [List.head?_cons, huniq h hhM hhid]
    · have hlt : h.updatedAt < c3.updatedAt := hdom h hhM hhid
      have hle : c3.updatedAt ≤ h.updatedAt := by
        rcases List.mem_cons.mp hc3L with hc | hc
        · rw [hc] at hhid
          exact absurd rfl hhid
        · exact hsorted.1 c3 hc
      omega

/-- C8: `getConversations` returns all stored conversations (a
permutation of the store) sorted by `updatedAt` descending; and after a
successful `sendMessage` whose new `updatedAt` exceeds every other
conversation's, the refreshed conversation is the first element of
`getConversations`. -/
theorem C8_sorted_desc_and_recent_first
    (st : ServiceState) (cid : List Char) (conv : Conversation)
    (content msgId asstId newConvId : List Char) (tc1 tc2 tu1 tu2 ta1 ta2 : Nat)
    (resp : PerplexityResponse)
    (hauth : st.isAuthenticated = true)
    (hfind : mapGet st.conversations cid = some conv)
    (hmax : ∀ y ∈ st.conversations, y.id ≠ cid → y.updatedAt < ta2) :
    ((getConversations st).Sorted (fun a b => b.updatedAt ≤ a.updatedAt)
      ∧ (getConversations st).Perm st.conversations)
    ∧ (∃ c2, (getConversations (sendMessage st content (some cid) msgId asstId newConvId
            tc1 tc2 tu1 tu2 ta1 ta2 (some resp)).1).head? = some c2
        ∧ c2.id = cid ∧ c2.updatedAt = ta2) := by
  have hid : conv.id = cid := mapGet_id hfind
  refine ⟨⟨getConversations_sorted st, getConversations_perm st⟩, ?_⟩
  rw [sendMessage_found st content cid conv msgId asstId newConvId
      tc1 tc2 tu1 tu2 ta1 ta2 (some resp) hauth hfind, sendCore_some]
  dsimp only
  refine ⟨withAsstMsg (withUserMsg conv content msgId tu1 tu2) content asstId ta1 ta2 resp,
    ?_, ?_, ?_⟩
  · refine head_is_fresh _ _ _ (getConversations_perm _) (getConversations_sorted _)
      (self_mem_mapSet _ _) ?_ ?_
    · intro y hy hne
      rcases mem_mapSet hy with rfl | ⟨hy2, hne2⟩
      · exact absurd rfl hne
      · rcases mem_mapSet hy2 with rfl | ⟨hy3, hne3⟩
        · exfalso
          apply hne
          rw [withUserMsg_id, withAsstMsg_id, withUserMsg_id]
        · have hyid : y.id ≠ cid := by
            intro hcc
            apply (ne_of_beq_false hne3)
            rw [hcc, withUserMsg_id, hid]
          have h5 := hmax y hy3 hyid
          rw [withAsstMsg_updatedAt]
          exact h5
    · intro y hy he
      rcases mem_mapSet hy with rfl | ⟨hy2, hne2⟩
      · rfl
      · exact absurd he (ne_of_beq_false hne2)
  · rw [withAsstMsg_id, withUserMsg_id]
    exact hid
  · exact withAsstMsg_updatedAt _ _ _ _ _ _

/-- Witness for C8: a concrete successful send to the only conversation
puts it (with the new `updatedAt`) at the head of `getConversations`. -/
theorem C8_witness :
    ∃ c2, (getConversations (sendMessage c9state (("hi").toList) (some (("c1").toList))
        (("m1").toList) (("m2").toList) (("n1").toList) 1 1 2 3 4 5
        (some respW)).1).head? = some c2
      ∧ c2.id = ("c1").toList ∧ c2.updatedAt = 5 :=
  (C8_sorted_desc_and_recent_first c9state (("c1").toList) c9conv (("hi").toList)
    (("m1").toList) (("m2").toList) (("n1").toList) 1 1 2 3 4 5 respW
    (by decide) (by decide) (by decide)).2

end Perplexity
